import Mathlib

/-!
Verification of the virtual file store of Taipei-Torrent
(`src/torrent/files.go`): a single logical byte store over a list of
files, addressed by flat offsets, with protocol-mandated boundary
behaviour (reads past the end yield zeros; writes past the end must be
zero), an optional cache layer, and construction/teardown of the handle
set.

The Go code is embedded shallowly: machine `int64` offsets become `Int`,
byte buffers become `List Nat`, and the external collaborators (file
handles, the filesystem, the cache) are modelled as the fakes the spec
itself prescribes for testing: in-memory data with optional fault
injection.  Side effects (writes, closes, cache notifications) are
returned as explicit event traces.
-/

set_option autoImplicit false

namespace Torrent

/-- A byte.  Only equality with zero matters to the store's logic. -/
abbrev Byte := Nat

/-- Model of the `File` interface (`io.ReaderAt`, `io.WriterAt`,
`io.Closer`): an in-memory content plus injectable faults, as the spec's
design notes prescribe for collaborator fakes. -/
structure File where
  data : List Byte
  readErr : Option String := none
  writeErr : Option String := none
  closeErr : Option String := none
deriving DecidableEq, Inhabited

/-- `ReadAt` on a handle: returns the bytes read and an error.  A healthy
handle serves the requested window of its content; a faulted one returns
its injected error with no bytes. -/
def File.ReadAt (f : File) (chunk : Nat) (off : Int) : List Byte × Option String :=
  match f.readErr with
  | some e => ([], some e)
  | none => ((f.data.drop off.toNat).take chunk, none)

/-- `WriteAt` on a handle: returns the count accepted and an error.  A
healthy handle accepts the whole buffer; a faulted one accepts nothing. -/
def File.WriteAt (f : File) (p : List Byte) (_off : Int) : Nat × Option String :=
  match f.writeErr with
  | some e => (0, some e)
  | none => (p.length, none)

/-- `Close` on a handle returns its injected close error, if any. -/
def File.Close (f : File) : Option String :=
  f.closeErr

/-- One entry of the store: declared length plus the owned handle
(`fileEntry` in the source). -/
structure fileEntry where
  length : Int
  file : File
deriving DecidableEq, Inhabited

/-- A range passed across the cache boundary (`inttuple`-like pairs
`{data, i}` in the source): a buffer together with a flat offset. -/
structure CacheRange where
  i : Int
  data : List Byte
deriving DecidableEq

/-- Model of the `TorrentCache` collaborator: `ReadAt` reports the
unfulfilled ranges for a request, `WriteAt` reports the ranges it did not
absorb (`none` = fully absorbed, matching Go's nil slice), and `Close`
may report an error. -/
structure TorrentCache where
  readAtRanges : Nat → Int → List CacheRange
  writeAtRanges : List Byte → Int → Option (List CacheRange)
  closeErr : Option String := none

/-- The store itself (`fileStore` in the source): the offset table, the
entries in increasing global-offset order, and the optional cache. -/
structure fileStore where
  offsets : List Int
  files : List fileEntry
  cache : Option TorrentCache := none

/-- The binary-search loop of `fileStore.find`: while `low < high-1`,
probe the midpoint and keep the half whose start offset is ≤ the target.
The loop count is bounded structurally by a fuel parameter; the wrapper
passes `high - low`, which the interval's strict shrinking never
exhausts. -/
def findLoop (offsets : List Int) (offset : Int) : Nat → Nat → Nat → Nat
  | _, low, 0 => low
  | high, low, fuel + 1 =>
    if low + 1 < high then
      let probe := (low + high) / 2
      let entry := offsets.getD probe 0
      if offset < entry then
        findLoop offsets offset probe low fuel
      else
        findLoop offsets offset high probe fuel
    else
      low

/-- `fileStore.find`: binary search for the index of the last entry whose
start offset is ≤ the given flat offset. -/
def fileStore.find (f : fileStore) (offset : Int) : Nat :=
  findLoop f.offsets offset f.offsets.length 0 f.offsets.length

/-- The walking loop of `RawReadAt`: starting at `index`, clamp each read
to the space left in the current entry, read from its handle, advance,
and move to the next entry; once entries are exhausted the remaining
destination bytes are zero-filled.  Returns the bytes placed in the
buffer, the count of bytes read from handles, and the error. -/
def rawReadAtLoop (files : List fileEntry) (offsets : List Int) :
    Nat → Nat → Int → Nat → List Byte × Nat × Option String
  | 0, plen, _, _ => (List.replicate plen 0, 0, none)
  | fuel + 1, plen, off, index =>
    if 0 < plen ∧ index < offsets.length then
      let chunk0 : Int := (plen : Int)
      let entry := files.getD index default
      let itemOffset := off - offsets.getD index 0
      if itemOffset < entry.length then
        let space := entry.length - itemOffset
        let chunk := if space < chunk0 then space else chunk0
        let r := entry.file.ReadAt chunk.toNat itemOffset
        let nThisTime := r.1.length
        match r.2 with
        | some e => (r.1, nThisTime, some e)
        | none =>
          let rest := rawReadAtLoop files offsets fuel (plen - nThisTime)
            (off + (nThisTime : Int)) (index + 1)
          (r.1 ++ rest.1, nThisTime + rest.2.1, rest.2.2)
      else
        rawReadAtLoop files offsets fuel plen off (index + 1)
    else
      (List.replicate plen 0, 0, none)

/-- `RawReadAt`: locate the starting entry with `find` and run the
walking loop (the fuel `offsets.length - index` covers the loop exactly,
since `index` increments every iteration).  The result is (buffer
contents, count, error). -/
def fileStore.RawReadAt (f : fileStore) (plen : Nat) (off : Int) :
    List Byte × Nat × Option String :=
  rawReadAtLoop f.files f.offsets (f.offsets.length - f.find off) plen off (f.find off)

/-- One write issued to an underlying handle: which entry, at which local
offset, with which bytes. -/
structure WriteEvent where
  index : Nat
  itemOffset : Int
  data : List Byte
deriving DecidableEq

/-- The walking loop of `RawWriteAt`, mirroring the read loop; when the
entries are exhausted, any remaining source byte must be zero, otherwise
the call fails with the protocol-violation error, still reporting the
count of bytes accepted before the violating byte.  Returns the count,
the error, and the trace of handle writes issued. -/
def rawWriteAtLoop (files : List fileEntry) (offsets : List Int) :
    Nat → List Byte → Int → Nat → Nat × Option String × List WriteEvent
  | 0, p, _, _ =>
    (match p.findIdx? (fun b => b != 0) with
      | some i => (i, some ("Unexpected non-zero data at end of store."), [])
      | none => (p.length, none, []))
  | fuel + 1, p, off, index =>
    if 0 < p.length ∧ index < offsets.length then
      let chunk0 : Int := (p.length : Int)
      let entry := files.getD index default
      let itemOffset := off - offsets.getD index 0
      if itemOffset < entry.length then
        let space := entry.length - itemOffset
        let chunk := if space < chunk0 then space else chunk0
        let slice := p.take chunk.toNat
        let w := entry.file.WriteAt slice itemOffset
        let ev : WriteEvent := ⟨index, itemOffset, slice⟩
        match w.2 with
        | some e => (w.1, some e, [ev])
        | none =>
          let rest := rawWriteAtLoop files offsets fuel (p.drop w.1)
            (off + (w.1 : Int)) (index + 1)
          (w.1 + rest.1, rest.2.1, ev :: rest.2.2)
      else
        rawWriteAtLoop files offsets fuel p off (index + 1)
    else
      match p.findIdx? (fun b => b != 0) with
      | some i => (i, some ("Unexpected non-zero data at end of store."), [])
      | none => (p.length, none, [])

/-- `RawWriteAt`: locate the starting entry with `find` and run the
walking write loop (fuel as in `fileStore.RawReadAt`). -/
def fileStore.RawWriteAt (f : fileStore) (p : List Byte) (off : Int) :
    Nat × Option String × List WriteEvent :=
  rawWriteAtLoop f.files f.offsets (f.offsets.length - f.find off) p off (f.find off)

/-- Observable actions of the cache-aware layer. -/
inductive StoreEvent where
  | rawWrite : List Byte → Int → StoreEvent
  | rawRead : Nat → Int → StoreEvent
  | cacheWrite : List Byte → Int → StoreEvent
  | cacheRead : Nat → Int → StoreEvent
  | markCommitted : Nat → StoreEvent
deriving DecidableEq

/-- Cache-aware `ReadAt`: with no cache, delegate to `RawReadAt`.  With a
cache, ask it for the unfulfilled ranges, raw-read each of them (keeping
the last error observed, without aborting the remaining ranges), and
report the full requested length.  The third component is the trace of
actions taken. -/
def fileStore.ReadAt (f : fileStore) (plen : Nat) (off : Int) :
    Nat × Option String × List StoreEvent :=
  match f.cache with
  | none =>
    let r := f.RawReadAt plen off
    (r.2.1, r.2.2, [StoreEvent.rawRead plen off])
  | some cache =>
    let unfullfilled := cache.readAtRanges plen off
    let retErr := unfullfilled.foldl
      (fun acc unf =>
        match (f.RawReadAt unf.data.length unf.i).2.2 with
        | some e => some e
        | none => acc) none
    (plen, retErr,
      StoreEvent.cacheRead plen off ::
        unfullfilled.map (fun unf => StoreEvent.rawRead unf.data.length unf.i))

/-- Cache-aware `WriteAt`: with a cache, delegate to it, raw-write each
range it did not absorb with the results discarded, and report full
success; with no cache, delegate to `RawWriteAt` and propagate its
result. -/
def fileStore.WriteAt (f : fileStore) (p : List Byte) (off : Int) :
    Nat × Option String × List StoreEvent :=
  match f.cache with
  | some cache =>
    let needRawWrite := cache.writeAtRanges p off
    let evs :=
      match needRawWrite with
      | some rs => rs.map (fun nc => StoreEvent.rawWrite nc.data nc.i)
      | none => []
    (p.length, none, StoreEvent.cacheWrite p off :: evs)
  | none =>
    let r := f.RawWriteAt p off
    (r.1, r.2.1, [StoreEvent.rawWrite p off])

/-- Outcome of `Commit`: nothing happened (no cache), the piece was
committed, or the process panicked on a raw-write error. -/
inductive CommitResult where
  | noop
  | committed
  | panicked : String → CommitResult
deriving DecidableEq

/-- `Commit`: with no cache attached, a no-op.  With a cache, raw-write
the piece at the flat offset; on error, panic; on success, notify the
cache with `MarkCommitted`. -/
def fileStore.Commit (f : fileStore) (pieceNum : Nat) (piece : List Byte) (off : Int) :
    CommitResult × List StoreEvent :=
  match f.cache with
  | none => (CommitResult.noop, [])
  | some _ =>
    let w := f.RawWriteAt piece off
    match w.2.1 with
    | some e => (CommitResult.panicked e, [StoreEvent.rawWrite piece off])
    | none =>
      (CommitResult.committed,
        [StoreEvent.rawWrite piece off, StoreEvent.markCommitted pieceNum])

/-- `Close`: close every handle (collecting each handle with the result
of its `Close` call, which the code discards), then close and detach the
cache if attached.  Returns the store's error (never assigned, hence
`none`), the per-handle close trace, the cache close result when one was
performed, and the resulting store. -/
def fileStore.Close (f : fileStore) :
    Option String × List (File × Option String) × Option (Option String) × fileStore :=
  let closes := f.files.map (fun e => (e.file, e.file.Close))
  match f.cache with
  | some c => (none, closes, some c.closeErr, { f with cache := none })
  | none => (none, closes, none, f)

/-- One declared file of the metainfo (`FileDict` in the source). -/
structure FileDict where
  Length : Int
  Path : List String
  Md5sum : String
deriving DecidableEq, Inhabited

/-- The metainfo fields `NewFileStore` consumes (`InfoDict` in the
source): the declared file list, and the overall length/name used for
the single-file fallback. -/
structure InfoDict where
  Files : List FileDict
  Length : Int
  Name : String
  Md5sum : String
deriving DecidableEq

/-- The filesystem collaborator: `Open(path, length)` yields a handle or
an error. -/
def FileSystem := List String → Int → Except String File

/-- The construction loop of `NewFileStore`: open each declared file in
order, recording its entry and its start offset (the running sum of
prior lengths); on an open failure, close every previously opened handle
and propagate the error.  Returns the outcome paired with the list of
handles closed during construction. -/
def newFileStoreLoop (fsys : FileSystem) (dicts : List FileDict)
    (totalSize : Int) (accFiles : List fileEntry) (accOffsets : List Int) :
    Except String (List fileEntry × List Int × Int) × List File :=
  match dicts with
  | [] => (Except.ok (accFiles, accOffsets, totalSize), [])
  | src :: rest =>
    match fsys src.Path src.Length with
    | Except.error e => (Except.error e, accFiles.map (fun en => en.file))
    | Except.ok file =>
      newFileStoreLoop fsys rest (totalSize + src.Length)
        (accFiles ++ [⟨src.Length, file⟩]) (accOffsets ++ [totalSize])

/-- The declared-file list `NewFileStore` actually iterates over: when
it is empty, the single synthetic entry built from the overall length
and name (the dummy `InfoDict` of the source). -/
def effectiveFiles (info : InfoDict) : List FileDict :=
  if info.Files.length = 0 then
    [FileDict.mk info.Length [info.Name] info.Md5sum]
  else
    info.Files

/-- `NewFileStore`: substitute the synthetic single entry when the
declared list is empty, then run the construction loop.  Returns the
store and total size, or the propagated error, along with the handles
closed on the failure path. -/
def NewFileStore (info : InfoDict) (fsys : FileSystem) :
    Except String (fileStore × Int) × List File :=
  match newFileStoreLoop fsys (effectiveFiles info) 0 [] [] with
  | (Except.ok (files, offsets, totalSize), _) =>
    (Except.ok ({ offsets := offsets, files := files, cache := none }, totalSize), [])
  | (Except.error e, closed) => (Except.error e, closed)

/-- The start offsets the construction loop assigns from a given running
total: each entry's offset is the running sum of the prior lengths. -/
def runOffsets (total : Int) : List FileDict → List Int
  | [] => []
  | d :: rest => total :: runOffsets (total + d.Length) rest

/-- The entries a fully successful construction produces, when the
filesystem returns handle `g j` for the `j`-th declared file. -/
def builtFiles (info : InfoDict) (g : Nat → File) : List fileEntry :=
  (List.range (effectiveFiles info).length).map
    (fun j => ⟨((effectiveFiles info).getD j default).Length, g j⟩)

/-- The store a fully successful construction produces. -/
def builtStore (info : InfoDict) (g : Nat → File) : fileStore :=
  { offsets := runOffsets 0 (effectiveFiles info),
    files := builtFiles info g,
    cache := none }

/-- `SetCache` attaches a cache collaborator to the store. -/
def fileStore.SetCache (f : fileStore) (cache : TorrentCache) : fileStore :=
  { f with cache := some cache }

/-! ### Derived notions and well-formedness predicates -/

/-- The start offset of entry `i`: the running sum of the declared
lengths of all prior entries. -/
def prefLenI (files : List fileEntry) (i : Nat) : Int :=
  ((files.take i).map (fun e => e.length)).sum

/-- The total declared size of the store: the sum of all entry lengths. -/
def totalSizeI (f : fileStore) : Int :=
  (f.files.map (fun e => e.length)).sum

/-- The logical content of the store: the concatenation of the handles'
contents in entry order. -/
def entriesData (files : List fileEntry) : List Byte :=
  (files.map (fun e => e.file.data)).flatten

/-- The bytes a fully-zero-padded read of `plen` bytes at position `s`
must deliver: the in-range window of `l`, padded on the right with zeros
to the full requested length. -/
def readWindow (l : List Byte) (s plen : Nat) : List Byte :=
  (l.drop s).take plen ++ List.replicate (plen - (l.length - s)) 0

/-- The store's offset table is exactly the running sums of prior entry
lengths (the invariant `NewFileStore` establishes). -/
def offsetsWF (f : fileStore) : Prop :=
  f.offsets.length = f.files.length ∧
  ∀ i, i < f.offsets.length → f.offsets.getD i 0 = prefLenI f.files i

/-- Every declared entry length is non-negative. -/
def lensNonneg (f : fileStore) : Prop :=
  ∀ e ∈ f.files, 0 ≤ e.length

/-- Every handle is healthy for reading and holds exactly its declared
number of bytes. -/
def readExact (f : fileStore) : Prop :=
  ∀ e ∈ f.files, (e.file.data.length : Int) = e.length ∧ e.file.readErr = none

/-- Every handle is healthy for writing. -/
def writeOk (f : fileStore) : Prop :=
  ∀ e ∈ f.files, e.file.writeErr = none

/-- The last `some` of a list of optional errors: the "last error
observed" over a best-effort iteration. -/
def lastErrOf : List (Option String) → Option String
  | [] => none
  | o :: rest =>
    match lastErrOf rest with
    | some e => some e
    | none => o

/-! ### Concrete instances used by witnesses and counterexamples -/

/-- A healthy 4-byte file. -/
def fileA : File := { data := [10, 11, 12, 13] }

/-- A healthy 6-byte file. -/
def fileB : File := { data := [20, 21, 22, 23, 24, 25] }

/-- The spec's running example: two files of lengths 4 and 6
(`totalSize` 10). -/
def exampleStore : fileStore :=
  { offsets := [0, 4], files := [⟨4, fileA⟩, ⟨6, fileB⟩] }

/-- A single-entry store holding one byte. -/
def oneByteStore : fileStore :=
  { offsets := [0], files := [⟨1, { data := [7] }⟩] }

/-- A handle whose reads and writes fail. -/
def faultyFile : File :=
  { data := [0, 0], readErr := some ("boom"), writeErr := some ("wboom") }

/-- A cache that absorbs everything and reports nothing unfulfilled. -/
def zeroCache : TorrentCache :=
  { readAtRanges := fun _ _ => [], writeAtRanges := fun _ _ => none }

/-- A cache whose close fails. -/
def erringCache : TorrentCache :=
  { zeroCache with closeErr := some ("ccboom") }

/-- A cache that reports two unfulfilled read ranges (one per underlying
file of `mixedStore`) and declines to absorb any write. -/
def rangeCache : TorrentCache :=
  { readAtRanges := fun _ _ => [⟨0, [9]⟩, ⟨2, [9]⟩],
    writeAtRanges := fun p off => some [⟨off, p⟩] }

/-- A cached store whose first file faults and whose second is healthy. -/
def mixedStore : fileStore :=
  { offsets := [0, 2], files := [⟨2, faultyFile⟩, ⟨2, { data := [5, 6] }⟩],
    cache := some rangeCache }

/-- A cached store over healthy files. -/
def commitStore : fileStore :=
  { offsets := [0, 4], files := [⟨4, fileA⟩, ⟨6, fileB⟩], cache := some zeroCache }

/-- A cached store whose only file rejects writes. -/
def faultyCachedStore : fileStore :=
  { offsets := [0], files := [⟨2, faultyFile⟩], cache := some rangeCache }

/-- A store with close errors everywhere: the single handle and the
cache both fail to close. -/
def closeErrStore : fileStore :=
  { offsets := [0],
    files := [⟨1, { data := [7], closeErr := some ("cboom") }⟩],
    cache := some erringCache }

/-- A store of two declared files with arbitrary lengths and handles,
the general shape of the spec's boundary-spanning scenario. -/
def twoFileStore (la lb : Int) (A B : File) : fileStore :=
  { offsets := [0, la], files := [⟨la, A⟩, ⟨lb, B⟩] }

/-- A filesystem whose every open succeeds with a zero-filled handle of
the requested length. -/
def fsysOK : FileSystem :=
  fun _ len => Except.ok { data := List.replicate len.toNat 0 }

/-- A filesystem that fails to open the path `["b"]` and otherwise
serves zero-filled handles tagged by their path, so distinct opens yield
distinguishable handles. -/
def fsysFailB : FileSystem :=
  fun path len =>
    if path = ["b"] then Except.error ("nope")
    else Except.ok { data := List.replicate len.toNat 0, closeErr := some (String.join path) }

/-- A three-file metainfo whose second file has the doomed path `["b"]`. -/
def infoW : InfoDict :=
  { Files := [⟨2, ["a"], ""⟩, ⟨3, ["b"], ""⟩, ⟨4, ["c"], ""⟩],
    Length := 9, Name := "t", Md5sum := "" }

/-- A metainfo with no declared files: the single-file fallback case. -/
def info0 : InfoDict :=
  { Files := [], Length := 5, Name := "n", Md5sum := "" }

/-- The handle `fsysOK` serves for the synthetic file of `info0`. -/
def g0 : Nat → File :=
  fun _ => { data := List.replicate 5 0 }

/-! ### Theorems -/

/-- C10: `Close` always reports no error — close errors of the handles
and of the cache are discarded — closes every handle exactly once (the
close trace lists each entry's handle once, in order), closes the cache
exactly when one is attached, and detaches it in the resulting store. -/
theorem Close_spec (f : fileStore) :
    (f.Close).1 = none ∧
    (f.Close).2.1 = f.files.map (fun e => (e.file, e.file.Close)) ∧
    (∀ c, f.cache = some c → (f.Close).2.2.1 = some c.closeErr) ∧
    (f.cache = none → (f.Close).2.2.1 = none) ∧
    (f.Close).2.2.2.cache = none := by
  cases hc : f.cache <;> simp [fileStore.Close, hc]

/-- Witness for C10: closing a store whose handle close and cache close
both fail still reports no error, and detaches the cache. -/
theorem Close_spec_witness :
    (closeErrStore.Close).1 = none ∧
    (closeErrStore.Close).2.2.1 = some (some ("ccboom")) ∧
    (closeErrStore.Close).2.2.2.cache = none :=
  ⟨(Close_spec closeErrStore).1,
   (Close_spec closeErrStore).2.2.1 erringCache rfl,
   (Close_spec closeErrStore).2.2.2.2⟩

/-- C7: `Commit` is a no-op when no cache is attached; with a cache it
performs exactly one raw write of the piece at the flat offset (the event
trace holds no cache write-absorption event), then on success exactly one
`MarkCommitted` notification; on a raw-write error it panics instead of
returning. -/
theorem Commit_spec (f : fileStore) (pieceNum : Nat) (piece : List Byte) (off : Int) :
    (f.cache = none → f.Commit pieceNum piece off = (CommitResult.noop, [])) ∧
    (f.cache.isSome →
      ((f.RawWriteAt piece off).2.1 = none →
        f.Commit pieceNum piece off =
          (CommitResult.committed,
            [StoreEvent.rawWrite piece off, StoreEvent.markCommitted pieceNum])) ∧
      (∀ e, (f.RawWriteAt piece off).2.1 = some e →
        f.Commit pieceNum piece off =
          (CommitResult.panicked e, [StoreEvent.rawWrite piece off]))) := by
  cases hc : f.cache with
  | none => simp [fileStore.Commit, hc]
  | some c =>
    refine ⟨by simp [hc], fun _ => ⟨fun hw => ?_, fun e hw => ?_⟩⟩ <;>
      simp [fileStore.Commit, hc, hw]

/-- Witness for C7: committing a piece on a cached healthy store
raw-writes it and then marks it committed, in that order. -/
theorem Commit_spec_witness :
    commitStore.Commit 7 [1, 2] 0 =
      (CommitResult.committed,
        [StoreEvent.rawWrite [1, 2] 0, StoreEvent.markCommitted 7]) :=
  ((Commit_spec commitStore 7 [1, 2] 0).2 rfl).1 (by decide)

/-- C8: with a cache attached, `WriteAt` reports full acceptance of the
buffer and no error — whatever the fallback raw writes of the ranges the
cache did not absorb do, their results are discarded — while without a
cache it delegates to `RawWriteAt` and propagates its count and error
unchanged. -/
theorem WriteAt_spec (f : fileStore) (p : List Byte) (off : Int) :
    (f.cache.isSome →
      (f.WriteAt p off).1 = p.length ∧ (f.WriteAt p off).2.1 = none) ∧
    (∀ c, f.cache = some c →
      (f.WriteAt p off).2.2 =
        StoreEvent.cacheWrite p off ::
          (match c.writeAtRanges p off with
            | some rs => rs.map (fun nc => StoreEvent.rawWrite nc.data nc.i)
            | none => [])) ∧
    (f.cache = none →
      f.WriteAt p off =
        ((f.RawWriteAt p off).1, (f.RawWriteAt p off).2.1,
          [StoreEvent.rawWrite p off])) := by
  cases hc : f.cache <;> simp [fileStore.WriteAt, hc]

/-- Witness for C8: on a cached store whose underlying handle rejects
writes, `WriteAt` still reports full acceptance and no error, even
though the raw write of the unabsorbed range fails. -/
theorem WriteAt_spec_witness :
    (faultyCachedStore.WriteAt [1] 0).1 = 1 ∧
    (faultyCachedStore.WriteAt [1] 0).2.1 = none ∧
    (faultyCachedStore.RawWriteAt [1] 0).2.1 = some ("wboom") :=
  ⟨((WriteAt_spec faultyCachedStore [1] 0).1 rfl).1,
   ((WriteAt_spec faultyCachedStore [1] 0).1 rfl).2,
   by decide⟩

/-- The fold `ReadAt` uses to record the last error observed equals the
last `some` of the per-range raw-read errors. -/
theorem readFold_eq_lastErr (f : fileStore) (l : List CacheRange) (init : Option String) :
    l.foldl
      (fun acc unf =>
        match (f.RawReadAt unf.data.length unf.i).2.2 with
        | some e => some e
        | none => acc) init =
      match lastErrOf (l.map (fun unf => (f.RawReadAt unf.data.length unf.i).2.2)) with
      | some e => some e
      | none => init := by
  induction l generalizing init with
  | nil => rfl
  | cons hd tl ih =>
    simp only [List.foldl_cons, List.map_cons, lastErrOf]
    rw [ih]
    cases hg : (f.RawReadAt hd.data.length hd.i).2.2 <;>
      cases hl : lastErrOf (tl.map (fun unf => (f.RawReadAt unf.data.length unf.i).2.2)) <;>
      simp

/-- C9: with a cache attached, `ReadAt` performs a raw read for every
unfulfilled range the cache reports (the trace holds one raw read per
range, independent of any errors among them), reports the full requested
length, and returns the last error observed among the fallback reads —
`none` when none failed. -/
theorem ReadAt_cached_spec (f : fileStore) (c : TorrentCache) (plen : Nat) (off : Int)
    (hc : f.cache = some c) :
    f.ReadAt plen off =
      (plen,
        lastErrOf ((c.readAtRanges plen off).map
          (fun unf => (f.RawReadAt unf.data.length unf.i).2.2)),
        StoreEvent.cacheRead plen off ::
          (c.readAtRanges plen off).map
            (fun unf => StoreEvent.rawRead unf.data.length unf.i)) := by
  simp only [fileStore.ReadAt, hc]
  rw [readFold_eq_lastErr]
  cases lastErrOf ((c.readAtRanges plen off).map
    (fun unf => (f.RawReadAt unf.data.length unf.i).2.2)) <;> rfl

/-- Witness for C9: on a cached store whose first file faults and second
is healthy, both reported ranges are raw-read (two raw-read events), the
full length is returned, and the returned error is the last one observed
(the faulty first range's error, the healthy second leaving it). -/
theorem ReadAt_cached_spec_witness :
    mixedStore.ReadAt 4 0 =
      (4, some ("boom"),
        [StoreEvent.cacheRead 4 0, StoreEvent.rawRead 1 0, StoreEvent.rawRead 1 2]) := by
  rw [ReadAt_cached_spec mixedStore rangeCache 4 0 rfl]
  rfl

/-- Invariant of the binary-search loop: starting from a bracket
`[low, high)` with `offsets[low] ≤ offset` and either `high` off the end
of the table or `offset < offsets[high]`, the loop lands on an index `r`
in the bracket with `offsets[r] ≤ offset` and either `r + 1` off the end
or `offset < offsets[r+1]`. -/
theorem findLoop_spec (offsets : List Int) (offset : Int) :
    ∀ (fuel high low : Nat), high - low ≤ fuel → low < high →
      high ≤ offsets.length →
      offsets.getD low 0 ≤ offset →
      (high = offsets.length ∨ offset < offsets.getD high 0) →
      low ≤ findLoop offsets offset high low fuel ∧
      findLoop offsets offset high low fuel < high ∧
      offsets.getD (findLoop offsets offset high low fuel) 0 ≤ offset ∧
      (findLoop offsets offset high low fuel + 1 = offsets.length ∨
        offset < offsets.getD (findLoop offsets offset high low fuel + 1) 0) := by
  intro fuel
  induction fuel with
  | zero => intro high low hf hlh _ _ _; omega
  | succ fuel ih =>
    intro high low hf hlh hhl hlow hhi
    have hunf : findLoop offsets offset high low (fuel + 1) =
        if low + 1 < high then
          (if offset < offsets.getD ((low + high) / 2) 0 then
            findLoop offsets offset ((low + high) / 2) low fuel
          else
            findLoop offsets offset high ((low + high) / 2) fuel)
        else low := rfl
    by_cases hc : low + 1 < high
    · by_cases ho : offset < offsets.getD ((low + high) / 2) 0
      · rw [hunf, if_pos hc, if_pos ho]
        have h := ih ((low + high) / 2) low (by omega) (by omega) (by omega) hlow (Or.inr ho)
        exact ⟨h.1, by omega, h.2.2⟩
      · rw [hunf, if_pos hc, if_neg ho]
        have h := ih high ((low + high) / 2) (by omega) (by omega) hhl
          (le_of_not_lt ho) hhi
        exact ⟨by omega, h.2⟩
    · rw [hunf, if_neg hc]
      have hhe : high = low + 1 := by omega
      exact ⟨le_refl _, hlh, hlow, by rw [← hhe]; exact hhi⟩

/-- Running sums grow by the length of the entry being included. -/
theorem prefLenI_succ (files : List fileEntry) (i : Nat) (h : i < files.length) :
    prefLenI files (i + 1) = prefLenI files i + (files.getD i default).length := by
  unfold prefLenI
  rw [List.take_succ, List.map_append, List.sum_append]
  simp [List.getElem?_eq_getElem h, List.getD_eq_getElem _ _ h]

/-- Past the end of the list, running sums saturate at the total. -/
theorem prefLenI_of_le (files : List fileEntry) (i : Nat) (h : files.length ≤ i) :
    prefLenI files i = (files.map (fun e => e.length)).sum := by
  unfold prefLenI
  rw [List.take_of_length_le h]

/-- With non-negative entry lengths, running sums are monotone. -/
theorem prefLenI_mono (files : List fileEntry)
    (hnn : ∀ e ∈ files, 0 ≤ e.length) :
    ∀ i j, i ≤ j → prefLenI files i ≤ prefLenI files j := by
  intro i j hij
  induction j with
  | zero =>
    have hi : i = 0 := by omega
    rw [hi]
  | succ j ihj =>
    rcases Nat.lt_or_ge i (j + 1) with hlt | hge
    · have step : prefLenI files j ≤ prefLenI files (j + 1) := by
        rcases Nat.lt_or_ge j files.length with hj | hj
        · rw [prefLenI_succ files j hj]
          have hmem : files.getD j default ∈ files := by
            rw [List.getD_eq_getElem _ _ hj]
            exact List.getElem_mem hj
          have := hnn _ hmem
          omega
        · rw [prefLenI_of_le files j hj, prefLenI_of_le files (j + 1) (by omega)]
      exact le_trans (ihj (by omega)) step
    · have hi : i = j + 1 := by omega
      rw [hi]

/-- The running sum over the whole list is the total size. -/
theorem prefLenI_length (files : List fileEntry) :
    prefLenI files files.length = (files.map (fun e => e.length)).sum := by
  unfold prefLenI
  rw [List.take_length]

/-- Core correctness of `find`: on a non-empty offset table that is
sorted and starts at 0, and for any flat offset `off ≥ 0`, `find`
returns an in-range index whose start offset is ≤ `off` and that is the
last such index; on a well-formed store, any `off ≥ totalSize` yields
the last entry's index. -/
theorem find_last (f : fileStore) (off : Int)
    (hne : 0 < f.offsets.length)
    (hsorted : ∀ i j, i ≤ j → j < f.offsets.length →
      f.offsets.getD i 0 ≤ f.offsets.getD j 0)
    (h0 : f.offsets.getD 0 0 = 0)
    (hoff : 0 ≤ off) :
    f.find off < f.offsets.length ∧
    f.offsets.getD (f.find off) 0 ≤ off ∧
    (∀ j, j < f.offsets.length → f.offsets.getD j 0 ≤ off → j ≤ f.find off) ∧
    (offsetsWF f → lensNonneg f → totalSizeI f ≤ off →
      f.find off = f.offsets.length - 1) := by
  have main := findLoop_spec f.offsets off f.offsets.length f.offsets.length 0
    (by omega) hne (le_refl _) (by rw [h0]; exact hoff) (Or.inl rfl)
  have hfind : f.find off = findLoop f.offsets off f.offsets.length 0 f.offsets.length := rfl
  rw [hfind]
  refine ⟨main.2.1, main.2.2.1, ?_, ?_⟩
  · intro j hj hjle
    by_contra hgt
    rcases main.2.2.2 with hend | hnext
    · omega
    · have : f.offsets.getD (findLoop f.offsets off f.offsets.length 0 f.offsets.length + 1) 0 ≤
          f.offsets.getD j 0 := hsorted _ j (by omega) hj
      omega
  · intro hwf hnn htot
    have hlen := hwf.1
    have hlast : f.offsets.getD (f.offsets.length - 1) 0 ≤ off := by
      rw [hwf.2 (f.offsets.length - 1) (by omega)]
      have h1 : prefLenI f.files (f.offsets.length - 1) ≤ prefLenI f.files f.files.length :=
        prefLenI_mono f.files hnn _ _ (by omega)
      rw [prefLenI_length] at h1
      have h2 : prefLenI f.files (f.offsets.length - 1) ≤ totalSizeI f := h1
      omega
    have hle : f.offsets.length - 1 ≤
        findLoop f.offsets off f.offsets.length 0 f.offsets.length := by
      by_contra hgt
      rcases main.2.2.2 with hend | hnext
      · omega
      · have := hsorted
          (findLoop f.offsets off f.offsets.length 0 f.offsets.length + 1)
          (f.offsets.length - 1) (by omega) (by omega)
        omega
    have hlt := main.2.1
    omega

/-- C3: on a non-empty offset table that is sorted and starts at 0, and
for any flat offset `off ≥ 0`, `find` returns an in-range index whose
start offset is ≤ `off` and that is the last such index; in particular,
on a well-formed store, any `off ≥ totalSize` returns the last entry's
index. -/
theorem find_spec (f : fileStore) (off : Int)
    (hne : 0 < f.offsets.length)
    (hsorted : ∀ i j, i ≤ j → j < f.offsets.length →
      f.offsets.getD i 0 ≤ f.offsets.getD j 0)
    (h0 : f.offsets.getD 0 0 = 0)
    (hoff : 0 ≤ off) :
    f.find off < f.offsets.length ∧
    f.offsets.getD (f.find off) 0 ≤ off ∧
    (∀ j, j < f.offsets.length → f.offsets.getD j 0 ≤ off → j ≤ f.find off) ∧
    (offsetsWF f → lensNonneg f → totalSizeI f ≤ off →
      f.find off = f.offsets.length - 1) :=
  find_last f off hne hsorted h0 hoff

/-- Witness for C3: on the two-file example store, an offset past the
total size locates the last entry; on a single-entry store, offset 0
locates index 0. -/
theorem find_spec_witness :
    exampleStore.find 100 = 1 ∧ oneByteStore.find 0 = 0 := by
  have hs2 : ∀ i j : Nat, i ≤ j → j < exampleStore.offsets.length →
      exampleStore.offsets.getD i 0 ≤ exampleStore.offsets.getD j 0 := by
    intro i j hij hj
    have hj2 : j < 2 := hj
    have hi2 : i < 2 := by omega
    interval_cases j <;> interval_cases i <;> decide
  have hs1 : ∀ i j : Nat, i ≤ j → j < oneByteStore.offsets.length →
      oneByteStore.offsets.getD i 0 ≤ oneByteStore.offsets.getD j 0 := by
    intro i j hij hj
    have hj2 : j < 1 := hj
    have hi0 : i = 0 := by omega
    have hj0 : j = 0 := by omega
    subst hi0; subst hj0; decide
  have hwf : offsetsWF exampleStore := by
    refine ⟨by decide, ?_⟩
    intro i hi
    have hi2 : i < 2 := hi
    interval_cases i <;> decide
  have hnn : lensNonneg exampleStore := by
    intro e he
    fin_cases he <;> decide
  constructor
  · exact (find_spec exampleStore 100 (by decide) hs2 (by decide) (by decide)).2.2.2
      hwf hnn (by decide)
  · have h := (find_spec oneByteStore 0 (by decide) hs1 (by decide) (by decide)).1
    have h1 : oneByteStore.offsets.length = 1 := rfl
    omega

/-- An empty read request is answered immediately with no bytes, a zero
count and no error, whatever the fuel. -/
theorem rawReadAtLoop_zero (files : List fileEntry) (offsets : List Int)
    (fuel : Nat) (off : Int) (index : Nat) :
    rawReadAtLoop files offsets fuel 0 off index = ([], 0, none) := by
  cases fuel <;> simp [rawReadAtLoop]

/-- A zero-length window is empty. -/
theorem readWindow_zero (l : List Byte) (s : Nat) : readWindow l s 0 = [] := by
  simp [readWindow]

/-- A window has the full requested length. -/
theorem readWindow_length (l : List Byte) (s plen : Nat) :
    (readWindow l s plen).length = plen := by
  simp [readWindow, List.length_take, List.length_drop]
  omega

/-- A window past the end of the data is all zeros. -/
theorem readWindow_past (l : List Byte) (s plen : Nat) (h : l.length ≤ s) :
    readWindow l s plen = List.replicate plen 0 := by
  unfold readWindow
  rw [List.drop_eq_nil_of_le h]
  simp
  omega

/-- Splitting a window at an in-range cut point: the first `c` bytes come
straight from the data, the remainder is the window shifted by `c`. -/
theorem readWindow_split (l : List Byte) (s c plen : Nat)
    (hc : c ≤ plen) (hs : s + c ≤ l.length) :
    readWindow l s plen = (l.drop s).take c ++ readWindow l (s + c) (plen - c) := by
  unfold readWindow
  have h1 : (l.drop s).take plen = (l.drop s).take c ++ ((l.drop s).drop c).take (plen - c) := by
    rw [← List.take_add]
    congr 1
    omega
  have h2 : (l.drop s).drop c = l.drop (s + c) := by
    rw [List.drop_drop]
  rw [h1, h2, List.append_assoc]
  have harith : plen - (l.length - s) = plen - c - (l.length - (s + c)) := by
    omega
  rw [harith]

/-- The data of a list of entries splits at any index. -/
theorem entriesData_take_drop (files : List fileEntry) (i : Nat) :
    entriesData files = entriesData (files.take i) ++ entriesData (files.drop i) := by
  unfold entriesData
  rw [← List.flatten_append, ← List.map_append, List.take_append_drop]

/-- With exact handles, the concatenated data is as long as the declared
total size. -/
theorem entriesData_length_eq (files : List fileEntry)
    (hex : ∀ e ∈ files, (e.file.data.length : Int) = e.length) :
    ((entriesData files).length : Int) = (files.map (fun e => e.length)).sum := by
  induction files with
  | nil => simp [entriesData]
  | cons hd tl ih =>
    have hhd := hex hd (by simp)
    have htl := ih (fun e he => hex e (by simp [he]))
    have hcons : entriesData (hd :: tl) = hd.file.data ++ entriesData tl := by
      simp [entriesData]
    rw [hcons]
    simp only [List.length_append, List.map_cons, List.sum_cons]
    push_cast
    omega

/-- With exact handles, the data of the first `i` entries is as long as
the `i`-th start offset. -/
theorem entriesData_take_length (files : List fileEntry)
    (hex : ∀ e ∈ files, (e.file.data.length : Int) = e.length) (i : Nat) :
    ((entriesData (files.take i)).length : Int) = prefLenI files i := by
  have h := entriesData_length_eq (files.take i)
    (fun e he => hex e (List.mem_of_mem_take he))
  exact h

/-- Dropping the bytes of the first `i` entries leaves the data of the
remaining entries. -/
theorem entriesData_drop_pref (files : List fileEntry)
    (hex : ∀ e ∈ files, (e.file.data.length : Int) = e.length) (i : Nat) :
    (entriesData files).drop (prefLenI files i).toNat = entriesData (files.drop i) := by
  rw [entriesData_take_drop files i]
  have hl : (entriesData (files.take i)).length = (prefLenI files i).toNat := by
    have := entriesData_take_length files hex i
    omega
  rw [← hl, List.drop_left]

/-- The data of the entries from `i` on starts with the `i`-th entry's
own bytes. -/
theorem entriesData_drop_cons (files : List fileEntry) (i : Nat) (h : i < files.length) :
    entriesData (files.drop i) =
      (files.getD i default).file.data ++ entriesData (files.drop (i + 1)) := by
  have hd : files.getD i default :: files.drop (i + 1) = files.drop i := by
    rw [List.getD_eq_getElem _ _ h]
    exact List.getElem_cons_drop files i h
  rw [← hd]
  simp [entriesData]

/-- The walking loop of `RawReadAt`, characterized: on a well-formed
offset table with exact, healthy handles, starting at any entry index
whose start offset is at or before the flat offset, the loop delivers
exactly the zero-padded window of the concatenated data, counts only the
bytes read from handles, and reports no error. -/

theorem rawReadAtLoop_spec (files : List fileEntry) (offsets : List Int)
    (hlen : offsets.length = files.length)
    (hoff : ∀ i, i < offsets.length → offsets.getD i 0 = prefLenI files i)
    (hex : ∀ e ∈ files, (e.file.data.length : Int) = e.length ∧ e.file.readErr = none) :
    ∀ (fuel plen : Nat) (off : Int) (index : Nat),
      offsets.length ≤ fuel + index →
      prefLenI files index ≤ off →
      rawReadAtLoop files offsets fuel plen off index =
        (readWindow (entriesData files) off.toNat plen,
         min plen ((entriesData files).length - off.toNat),
         none) := by
  have hnn : ∀ e ∈ files, 0 ≤ e.length := fun e he => by
    have := (hex e he).1
    omega
  have htotal : ((entriesData files).length : Int) = prefLenI files files.length := by
    rw [entriesData_length_eq files (fun e he => (hex e he).1), prefLenI_length]
  intro fuel
  induction fuel with
  | zero =>
    intro plen off index hfuel hidx
    have hsat : prefLenI files index = prefLenI files files.length := by
      rw [prefLenI_of_le files index (by omega), prefLenI_length]
    have hpast : (entriesData files).length ≤ off.toNat := by omega
    simp only [rawReadAtLoop]
    rw [readWindow_past _ _ _ hpast]
    have hmin : min plen ((entriesData files).length - off.toNat) = 0 := by omega
    rw [hmin]
  | succ fuel ih =>
    intro plen off index hfuel hidx
    by_cases hg : 0 < plen ∧ index < offsets.length
    · have hunf : rawReadAtLoop files offsets (fuel + 1) plen off index =
          if off - offsets.getD index 0 < (files.getD index default).length then
            (let r := (files.getD index default).file.ReadAt
                (if (files.getD index default).length - (off - offsets.getD index 0) < (plen : Int)
                  then (files.getD index default).length - (off - offsets.getD index 0)
                  else (plen : Int)).toNat
                (off - offsets.getD index 0)
             match r.2 with
             | some e => (r.1, r.1.length, some e)
             | none =>
               let rest := rawReadAtLoop files offsets fuel (plen - r.1.length)
                 (off + (r.1.length : Int)) (index + 1)
               (r.1 ++ rest.1, r.1.length + rest.2.1, rest.2.2))
          else rawReadAtLoop files offsets fuel plen off (index + 1) := by
        simp only [rawReadAtLoop, if_pos hg]
      have hinl : index < files.length := by omega
      have hmem : files.getD index default ∈ files := by
        rw [List.getD_eq_getElem _ _ hinl]
        exact List.getElem_mem hinl
      have hdl := (hex _ hmem).1
      have hre := (hex _ hmem).2
      have hstart : offsets.getD index 0 = prefLenI files index := hoff index hg.2
      have hpref0 : 0 ≤ prefLenI files index := prefLenI_mono files hnn 0 index (by omega)
      have hprefnext : prefLenI files (index + 1) =
          prefLenI files index + (files.getD index default).length :=
        prefLenI_succ files index hinl
      have hof0 : 0 ≤ off := le_trans hpref0 hidx
      by_cases hio : off - offsets.getD index 0 < (files.getD index default).length
      · rw [hunf, if_pos hio]
        have hio0 : 0 ≤ off - offsets.getD index 0 := by omega
        have hread : (files.getD index default).file.ReadAt
            (if (files.getD index default).length - (off - offsets.getD index 0) < (plen : Int)
              then (files.getD index default).length - (off - offsets.getD index 0)
              else (plen : Int)).toNat
            (off - offsets.getD index 0) =
            (((files.getD index default).file.data.drop (off - offsets.getD index 0).toNat).take
              (if (files.getD index default).length - (off - offsets.getD index 0) < (plen : Int)
                then (files.getD index default).length - (off - offsets.getD index 0)
                else (plen : Int)).toNat, none) := by
          unfold File.ReadAt
          rw [hre]
        simp only [hread]
        have hLdrop : (entriesData files).drop off.toNat =
            ((files.getD index default).file.data.drop (off - offsets.getD index 0).toNat) ++
              entriesData (files.drop (index + 1)) := by
          have h1 := entriesData_drop_pref files (fun e he => (hex e he).1) index
          have h2 := entriesData_drop_cons files index hinl
          have h3 : (entriesData files).drop off.toNat =
              ((entriesData files).drop (prefLenI files index).toNat).drop
                (off - offsets.getD index 0).toNat := by
            rw [List.drop_drop]
            congr 1
            omega
          rw [h3, h1, h2, List.drop_append_eq_append_drop]
          have h4 : (off - offsets.getD index 0).toNat -
              (files.getD index default).file.data.length = 0 := by omega
          rw [h4, List.drop_zero]
        have hlenle : prefLenI files (index + 1) ≤ prefLenI files files.length :=
          prefLenI_mono files hnn _ _ (by omega)
        by_cases hsp : (files.getD index default).length - (off - offsets.getD index 0) < (plen : Int)
        · simp only [if_pos hsp]
          have hblen : (List.take ((files.getD index default).length -
                (off - offsets.getD index 0)).toNat
              (List.drop (off - offsets.getD index 0).toNat
                (files.getD index default).file.data)).length =
              ((files.getD index default).length - (off - offsets.getD index 0)).toNat := by
            rw [List.length_take, List.length_drop]
            omega
          rw [hblen]
          have hrest := ih
            (plen - ((files.getD index default).length - (off - offsets.getD index 0)).toNat)
            (off + (((files.getD index default).length - (off - offsets.getD index 0)).toNat : Int))
            (index + 1) (by omega) (by omega)
          rw [hrest]
          have htn : (off + (((files.getD index default).length -
              (off - offsets.getD index 0)).toNat : Int)).toNat =
              off.toNat + ((files.getD index default).length -
                (off - offsets.getD index 0)).toNat := by omega
          rw [htn]
          have hbytes : List.take ((files.getD index default).length -
                (off - offsets.getD index 0)).toNat
              (List.drop (off - offsets.getD index 0).toNat
                (files.getD index default).file.data) =
              List.take ((files.getD index default).length -
                (off - offsets.getD index 0)).toNat
                ((entriesData files).drop off.toNat) := by
            rw [hLdrop, List.take_append_eq_append_take]
            have h5 : ((files.getD index default).length -
                (off - offsets.getD index 0)).toNat -
                ((files.getD index default).file.data.drop
                  (off - offsets.getD index 0).toNat).length = 0 := by
              rw [List.length_drop]
              omega
            rw [h5, List.take_zero, List.append_nil]
          rw [hbytes]
          have hs5 : off.toNat + ((files.getD index default).length -
              (off - offsets.getD index 0)).toNat ≤ (entriesData files).length := by omega
          simp only [Prod.mk.injEq]
          refine ⟨?_, ?_, trivial⟩
          · exact (readWindow_split (entriesData files) off.toNat _ plen (by omega) hs5).symm
          · omega
        · simp only [if_neg hsp]
          have hblen : (List.take ((plen : Int)).toNat
              (List.drop (off - offsets.getD index 0).toNat
                (files.getD index default).file.data)).length = plen := by
            rw [List.length_take, List.length_drop]
            omega
          rw [hblen, Nat.sub_self, rawReadAtLoop_zero]
          have hbytes : List.take ((plen : Int)).toNat
              (List.drop (off - offsets.getD index 0).toNat
                (files.getD index default).file.data) =
              List.take ((plen : Int)).toNat ((entriesData files).drop off.toNat) := by
            rw [hLdrop, List.take_append_eq_append_take]
            have h5 : ((plen : Int)).toNat -
                ((files.getD index default).file.data.drop
                  (off - offsets.getD index 0).toNat).length = 0 := by
              rw [List.length_drop]
              omega
            rw [h5, List.take_zero, List.append_nil]
          rw [hbytes]
          have hs5 : off.toNat + plen ≤ (entriesData files).length := by omega
          have hsplit := readWindow_split (entriesData files) off.toNat plen plen
            (le_refl plen) hs5
          rw [Nat.sub_self, readWindow_zero, List.append_nil] at hsplit
          simp only [Prod.mk.injEq]
          refine ⟨?_, ?_, trivial⟩
          · have hpn : ((plen : Int)).toNat = plen := by omega
            rw [hpn, List.append_nil]
            exact hsplit.symm
          · omega
      · rw [hunf, if_neg hio]
        exact ih plen off (index + 1) (by omega) (by omega)
    · have hunf : rawReadAtLoop files offsets (fuel + 1) plen off index =
          (List.replicate plen 0, 0, none) := by
        simp only [rawReadAtLoop, if_neg hg]
      rw [hunf]
      rcases Nat.eq_zero_or_pos plen with h0 | h0
      · subst h0
        rw [readWindow_zero]
        simp
      · have hile : offsets.length ≤ index := by
          rcases Nat.lt_or_ge index offsets.length with h | h
          · exact absurd ⟨h0, h⟩ hg
          · exact h
        have hsat : prefLenI files index = prefLenI files files.length := by
          rw [prefLenI_of_le files index (by omega), prefLenI_length]
        have hpast : (entriesData files).length ≤ off.toNat := by omega
        rw [readWindow_past _ _ _ hpast]
        have hmin : min plen ((entriesData files).length - off.toNat) = 0 := by omega
        rw [hmin]

/-- Window characterization of `RawReadAt`: on a well-formed store with
at least one entry whose handles are exact and healthy, the buffer is
the zero-padded window of the store's data, the count is the number of
in-range bytes, and there is no error. -/
theorem RawReadAt_window (f : fileStore) (plen : Nat) (off : Int)
    (hwf : offsetsWF f) (hne : f.files ≠ []) (hex : readExact f)
    (hoff : 0 ≤ off) :
    f.RawReadAt plen off =
      (readWindow (entriesData f.files) off.toNat plen,
       min plen ((entriesData f.files).length - off.toNat),
       none) := by
  have hnn : lensNonneg f := fun e he => by
    have := (hex e he).1
    omega
  have hfilespos : 0 < f.files.length := List.length_pos.mpr hne
  have hlenpos : 0 < f.offsets.length := by
    have := hwf.1
    omega
  have hsorted : ∀ i j, i ≤ j → j < f.offsets.length →
      f.offsets.getD i 0 ≤ f.offsets.getD j 0 := by
    intro i j hij hj
    rw [hwf.2 i (by omega), hwf.2 j hj]
    exact prefLenI_mono f.files hnn i j hij
  have h0 : f.offsets.getD 0 0 = 0 := by
    rw [hwf.2 0 hlenpos]
    rfl
  have hfind := find_last f off hlenpos hsorted h0 hoff
  exact rawReadAtLoop_spec f.files f.offsets hwf.1 hwf.2 hex
    (f.offsets.length - f.find off) plen off (f.find off)
    (by omega)
    (by rw [← hwf.2 _ hfind.1]; exact hfind.2.1)

/-- C1 (amended): on a well-formed store with at least one entry whose
handles are exact and healthy, `RawReadAt` fills the buffer fully with
the zero-padded window of the store's data — bytes beyond the declared
region read as zero — and reports no error; the returned count equals
the number of bytes read from the underlying entries
(`min plen (totalData - off)`), which is the full buffer length exactly
when the whole range lies inside the declared region, but excludes the
zero-filled tail bytes otherwise. -/
theorem RawReadAt_spec (f : fileStore) (plen : Nat) (off : Int)
    (hwf : offsetsWF f) (hne : f.files ≠ []) (hex : readExact f)
    (hoff : 0 ≤ off) :
    f.RawReadAt plen off =
      (readWindow (entriesData f.files) off.toNat plen,
       min plen ((entriesData f.files).length - off.toNat),
       none) :=
  RawReadAt_window f plen off hwf hne hex hoff

/-- Counterexample for C1: on a single-entry store of one byte with a
healthy handle, a raw read of two bytes at offset 0 fills the buffer
fully (`[7, 0]`, the tail byte zero-filled) and reports no error, but
returns count 1, not the full buffer length 2 as the claim states. -/
theorem RawReadAt_count_counterexample :
    (oneByteStore.RawReadAt 2 0).1 = [7, 0] ∧
    (oneByteStore.RawReadAt 2 0).2.2 = none ∧
    (oneByteStore.RawReadAt 2 0).2.1 ≠ 2 := by
  decide

/-- Witness for C1 (amended): a read of 5 bytes at offset 8 of the
10-byte example store returns the 2 in-range bytes followed by 3 zeros,
count 2, and no error. -/
theorem RawReadAt_spec_witness :
    exampleStore.RawReadAt 5 8 = ([24, 25, 0, 0, 0], 2, none) := by
  have hwf : offsetsWF exampleStore := by
    refine ⟨by decide, ?_⟩
    intro i hi
    have hi2 : i < 2 := hi
    interval_cases i <;> decide
  have hex : readExact exampleStore := by
    intro e he
    fin_cases he <;> exact ⟨by decide, by decide⟩
  have h := RawReadAt_spec exampleStore 5 8 hwf (by decide) hex (by decide)
  rw [h]
  rfl

/-- `findIdx?` locates the first non-zero byte. -/
theorem findIdx?_first_nonzero (p : List Byte) :
    ∀ i, i < p.length → p.getD i 0 ≠ 0 → (∀ j, j < i → p.getD j 0 = 0) →
      p.findIdx? (fun b => b != 0) = some i := by
  induction p with
  | nil => intro i hi _ _; simp at hi
  | cons hd tl ih =>
    intro i hi hnz hz
    cases i with
    | zero =>
      have hhd : hd ≠ 0 := hnz
      rw [List.findIdx?_cons, if_pos (by simpa using hhd)]
    | succ i =>
      have hhd : hd = 0 := hz 0 (by omega)
      rw [List.findIdx?_cons, if_neg (by simp [hhd]), List.findIdx?_succ]
      have hrec := ih i (by simpa using hi) (by simpa using hnz)
        (fun j hj => by simpa using hz (j + 1) (by omega))
      rw [hrec]
      rfl

/-- If every entry from `index` on ends at or before the flat offset,
the write loop touches no handle and falls through to the trailing
zero-check of the remaining buffer. -/
theorem rawWriteAtLoop_skip (files : List fileEntry) (offsets : List Int) :
    ∀ (fuel : Nat) (p : List Byte) (off : Int) (index : Nat),
      (∀ i, index ≤ i → i < offsets.length →
        offsets.getD i 0 + (files.getD i default).length ≤ off) →
      rawWriteAtLoop files offsets fuel p off index =
        (match p.findIdx? (fun b => b != 0) with
          | some i => (i, some ("Unexpected non-zero data at end of store."), [])
          | none => (p.length, none, [])) := by
  intro fuel
  induction fuel with
  | zero => intro p off index _; rfl
  | succ fuel ih =>
    intro p off index hskip
    by_cases hg : 0 < p.length ∧ index < offsets.length
    · have hnotlt : ¬(off - offsets.getD index 0 < (files.getD index default).length) := by
        have := hskip index (le_refl _) hg.2
        omega
      have hunf : rawWriteAtLoop files offsets (fuel + 1) p off index =
          if off - offsets.getD index 0 < (files.getD index default).length then
            rawWriteAtLoop files offsets (fuel + 1) p off index
          else rawWriteAtLoop files offsets fuel p off (index + 1) := by
        rw [if_neg hnotlt]
        simp only [rawWriteAtLoop, if_pos hg, if_neg hnotlt]
      rw [hunf, if_neg hnotlt]
      exact ih p off (index + 1) (fun i hi hiL => hskip i (by omega) hiL)
    · simp only [rawWriteAtLoop, if_neg hg]

/-- C2: on a well-formed store, a raw write entirely past the declared
region accepts an all-zero buffer fully with no error, while a buffer
whose first non-zero byte sits at position `i` fails with the distinct
protocol-violation error and reports exactly the `i` bytes accepted
before the violation; no handle write is issued either way. -/
theorem RawWriteAt_pastEnd_spec (f : fileStore) (p : List Byte) (off : Int)
    (hwf : offsetsWF f) (hnn : lensNonneg f) (htot : totalSizeI f ≤ off) :
    ((∀ b ∈ p, b = 0) → f.RawWriteAt p off = (p.length, none, [])) ∧
    (∀ i, i < p.length → p.getD i 0 ≠ 0 → (∀ j, j < i → p.getD j 0 = 0) →
      f.RawWriteAt p off =
        (i, some ("Unexpected non-zero data at end of store."), [])) := by
  have htot' : (f.files.map (fun e => e.length)).sum ≤ off := htot
  have hskip : ∀ i, f.find off ≤ i → i < f.offsets.length →
      f.offsets.getD i 0 + (f.files.getD i default).length ≤ off := by
    intro i _ hiL
    have hlen := hwf.1
    rw [hwf.2 i hiL]
    have hsucc : prefLenI f.files (i + 1) =
        prefLenI f.files i + (f.files.getD i default).length :=
      prefLenI_succ f.files i (by omega)
    have hmono : prefLenI f.files (i + 1) ≤ prefLenI f.files f.files.length :=
      prefLenI_mono f.files hnn _ _ (by omega)
    rw [prefLenI_length] at hmono
    omega
  have hmain := rawWriteAtLoop_skip f.files f.offsets
    (f.offsets.length - f.find off) p off (f.find off) hskip
  constructor
  · intro hz
    have hnone : p.findIdx? (fun b => b != 0) = none :=
      List.findIdx?_eq_none_iff.mpr (fun x hx => by simpa using hz x hx)
    show rawWriteAtLoop f.files f.offsets (f.offsets.length - f.find off) p off (f.find off) = _
    rw [hmain, hnone]
  · intro i hi hnz hzb
    have hsome := findIdx?_first_nonzero p i hi hnz hzb
    show rawWriteAtLoop f.files f.offsets (f.offsets.length - f.find off) p off (f.find off) = _
    rw [hmain, hsome]

/-- Witness for C2: past the end of the 10-byte example store, writing
two zeros succeeds accepting both bytes; writing `[0, 5, 0]` fails with
the protocol-violation error after accepting exactly 1 byte. -/
theorem RawWriteAt_pastEnd_witness :
    exampleStore.RawWriteAt [0, 0] 10 = (2, none, []) ∧
    exampleStore.RawWriteAt [0, 5, 0] 12 =
      (1, some ("Unexpected non-zero data at end of store."), []) := by
  have hwf : offsetsWF exampleStore := by
    refine ⟨by decide, ?_⟩
    intro i hi
    have hi2 : i < 2 := hi
    interval_cases i <;> decide
  have hnn : lensNonneg exampleStore := by
    intro e he
    fin_cases he <;> decide
  refine ⟨(RawWriteAt_pastEnd_spec exampleStore [0, 0] 10 hwf hnn (by decide)).1 (by decide),
    (RawWriteAt_pastEnd_spec exampleStore [0, 5, 0] 12 hwf hnn (by decide)).2 1
      (by decide) (by decide) ?_⟩
  intro j hj
  interval_cases j
  decide

/-- A raw write spanning the boundary of a two-file store issues exactly
two handle writes: the bytes up to the first file's end at the computed
local offset of file 0, then the remainder at local offset 0 of file 1,
accepting the whole buffer with no error. -/
theorem boundary_write (la lb : Int) (A B : File) (p : List Byte) (off : Int)
    (hAw : A.writeErr = none) (hBw : B.writeErr = none)
    (_hoff : 0 ≤ off) (hlo : off < la)
    (hspan : la < off + (p.length : Int))
    (hhi : off + (p.length : Int) ≤ la + lb) :
    (twoFileStore la lb A B).RawWriteAt p off =
      (p.length, none,
        [⟨0, off, p.take (la - off).toNat⟩, ⟨1, 0, p.drop (la - off).toNat⟩]) := by
  have hg1 : 0 < p.length := by omega
  have hfind : (twoFileStore la lb A B).find off = 0 := by
    have h1 : (twoFileStore la lb A B).find off = findLoop [0, la] off 2 0 2 := rfl
    have h2 : findLoop [0, la] off 2 0 2 =
        if off < ([0, la] : List Int).getD 1 0 then findLoop [0, la] off 1 0 1
        else findLoop [0, la] off 2 1 1 := rfl
    have h3 : ([0, la] : List Int).getD 1 0 = la := rfl
    rw [h1, h2, h3, if_pos hlo]
    rfl
  have hshow : (twoFileStore la lb A B).RawWriteAt p off =
      rawWriteAtLoop [⟨la, A⟩, ⟨lb, B⟩] [0, la] 2 p off 0 := by
    show rawWriteAtLoop [⟨la, A⟩, ⟨lb, B⟩] [0, la]
        ((twoFileStore la lb A B).offsets.length - (twoFileStore la lb A B).find off) p off
        ((twoFileStore la lb A B).find off) = _
    rw [hfind]
    rfl
  rw [hshow]
  have s1 : rawWriteAtLoop [⟨la, A⟩, ⟨lb, B⟩] [0, la] 2 p off 0 =
      if 0 < p.length ∧ (0:Nat) < 2 then
        if off - 0 < la then
          (let chunk := if la - (off - 0) < (p.length : Int) then la - (off - 0)
              else (p.length : Int)
           let slice := p.take chunk.toNat
           let w := File.WriteAt A slice (off - 0)
           match w.2 with
           | some e => (w.1, some e, [⟨0, off - 0, slice⟩])
           | none =>
             let rest := rawWriteAtLoop [⟨la, A⟩, ⟨lb, B⟩] [0, la] 1 (p.drop w.1)
               (off + (w.1 : Int)) 1
             (w.1 + rest.1, rest.2.1, (⟨0, off - 0, slice⟩ : WriteEvent) :: rest.2.2))
        else rawWriteAtLoop [⟨la, A⟩, ⟨lb, B⟩] [0, la] 1 p off 1
      else
        (match p.findIdx? (fun b => b != 0) with
          | some i => (i, some ("Unexpected non-zero data at end of store."), [])
          | none => (p.length, none, [])) := rfl
  rw [s1, if_pos (⟨hg1, by omega⟩ : 0 < p.length ∧ (0:Nat) < 2), if_pos (by omega : off - 0 < la)]
  rw [show (if la - (off - 0) < (p.length : Int) then la - (off - 0)
      else (p.length : Int)) = la - off from by rw [if_pos (by omega)]; omega]
  have hw : File.WriteAt A (p.take (la - off).toNat) (off - 0) =
      ((p.take (la - off).toNat).length, none) := by
    unfold File.WriteAt
    rw [hAw]
  simp only [hw]
  have hslice : (p.take (la - off).toNat).length = (la - off).toNat := by
    rw [List.length_take]
    omega
  simp only [hslice]
  rw [show off + (((la - off).toNat : Nat) : Int) = la from by omega]
  have hq : 0 < (p.drop (la - off).toNat).length := by
    rw [List.length_drop]
    omega
  have s2a : rawWriteAtLoop [⟨la, A⟩, ⟨lb, B⟩] [0, la] 1 (p.drop (la - off).toNat) la 1 =
      if 0 < (p.drop (la - off).toNat).length ∧ (1:Nat) < 2 then
        if la - la < lb then
          (let chunk := if lb - (la - la) < ((p.drop (la - off).toNat).length : Int)
              then lb - (la - la) else ((p.drop (la - off).toNat).length : Int)
           let slice := (p.drop (la - off).toNat).take chunk.toNat
           let w := File.WriteAt B slice (la - la)
           match w.2 with
           | some e => (w.1, some e, [⟨1, la - la, slice⟩])
           | none =>
             let rest := rawWriteAtLoop [⟨la, A⟩, ⟨lb, B⟩] [0, la] 0
               ((p.drop (la - off).toNat).drop w.1) (la + (w.1 : Int)) 2
             (w.1 + rest.1, rest.2.1, (⟨1, la - la, slice⟩ : WriteEvent) :: rest.2.2))
        else rawWriteAtLoop [⟨la, A⟩, ⟨lb, B⟩] [0, la] 0 (p.drop (la - off).toNat) la 2
      else
        (match (p.drop (la - off).toNat).findIdx? (fun b => b != 0) with
          | some i => (i, some ("Unexpected non-zero data at end of store."), [])
          | none => ((p.drop (la - off).toNat).length, none, [])) := rfl
  have s2 : rawWriteAtLoop [⟨la, A⟩, ⟨lb, B⟩] [0, la] 1 (p.drop (la - off).toNat) la 1 =
      ((p.drop (la - off).toNat).length, none,
        [⟨1, la - la, p.drop (la - off).toNat⟩]) := by
    rw [s2a, if_pos (⟨hq, by omega⟩ : 0 < (p.drop (la - off).toNat).length ∧ (1:Nat) < 2),
      if_pos (by omega : la - la < lb)]
    simp only [show (if lb - (la - la) < ((p.drop (la - off).toNat).length : Int)
        then lb - (la - la)
        else ((p.drop (la - off).toNat).length : Int)) =
        ((p.drop (la - off).toNat).length : Int) from by
      rw [if_neg]
      rw [List.length_drop]
      omega]
    simp only [Int.toNat_natCast, List.take_length]
    have hwB : File.WriteAt B (p.drop (la - off).toNat) (la - la) =
        ((p.drop (la - off).toNat).length, none) := by
      unfold File.WriteAt
      rw [hBw]
    simp only [hwB]
    rw [List.drop_length]
    rfl
  rw [s2]
  simp only [Prod.mk.injEq]
  refine ⟨?_, trivial, ?_⟩
  · rw [List.length_drop]
    omega
  · simp


/-- C4: an access spanning the boundary between the two adjacent files
of a store is split at the boundary.  A raw read returns the tail of
file A's data from the computed local offset concatenated with the head
of file B's data (a single logically contiguous result of the full
requested length, no error); a raw write issues exactly the bytes up to
file A's end to file A at that local offset and the remainder to file B
at local offset 0, accepting all bytes with no error. -/
theorem boundary_split_spec (la lb : Int) (A B : File) (p : List Byte) (off : Int)
    (hA : (A.data.length : Int) = la) (hB : (B.data.length : Int) = lb)
    (hAr : A.readErr = none) (hBr : B.readErr = none)
    (hAw : A.writeErr = none) (hBw : B.writeErr = none)
    (hoff : 0 ≤ off) (hlo : off < la)
    (hspan : la < off + (p.length : Int))
    (hhi : off + (p.length : Int) ≤ la + lb) :
    (twoFileStore la lb A B).RawReadAt p.length off =
      (A.data.drop off.toNat ++ B.data.take (off.toNat + p.length - A.data.length),
       p.length, none) ∧
    (twoFileStore la lb A B).RawWriteAt p off =
      (p.length, none,
        [⟨0, off, p.take (la - off).toNat⟩, ⟨1, 0, p.drop (la - off).toNat⟩]) := by
  refine ⟨?_, boundary_write la lb A B p off hAw hBw hoff hlo hspan hhi⟩
  have hwf : offsetsWF (twoFileStore la lb A B) := by
    refine ⟨rfl, ?_⟩
    intro i hi
    have hi2 : i < 2 := hi
    interval_cases i
    · rfl
    · show la = prefLenI [⟨la, A⟩, ⟨lb, B⟩] 1
      simp [prefLenI]
  have hex : readExact (twoFileStore la lb A B) := by
    intro e he
    fin_cases he
    · exact ⟨hA, hAr⟩
    · exact ⟨hB, hBr⟩
  have h := RawReadAt_window (twoFileStore la lb A B) p.length off hwf
    (by simp [twoFileStore]) hex hoff
  rw [h]
  have hL : entriesData (twoFileStore la lb A B).files = A.data ++ B.data := by
    simp [entriesData, twoFileStore]
  rw [hL]
  have hlenL : (A.data ++ B.data).length = A.data.length + B.data.length :=
    List.length_append _ _
  unfold readWindow
  have hrep : p.length - ((A.data ++ B.data).length - off.toNat) = 0 := by omega
  rw [hrep]
  have hdrop : (A.data ++ B.data).drop off.toNat = A.data.drop off.toNat ++ B.data := by
    rw [List.drop_append_eq_append_drop]
    have h0 : off.toNat - A.data.length = 0 := by omega
    rw [h0, List.drop_zero]
  rw [hdrop, List.take_append_eq_append_take]
  have htk : (A.data.drop off.toNat).length = A.data.length - off.toNat :=
    List.length_drop _ _
  have h1 : List.take p.length (A.data.drop off.toNat) = A.data.drop off.toNat :=
    List.take_of_length_le (by rw [htk]; omega)
  rw [h1, htk]
  have h2 : p.length - (A.data.length - off.toNat) = off.toNat + p.length - A.data.length := by
    omega
  rw [h2]
  simp only [Prod.mk.injEq]
  refine ⟨by simp, ?_, trivial⟩
  omega

/-- Witness for C4: on the spec's example store (files of lengths 4 and
6), a read of length 3 at offset 3 returns byte 3 of file A followed by
bytes 0-1 of file B, and the matching write splits into events
(file 0, local offset 3, 1 byte) and (file 1, local offset 0, 2 bytes). -/
theorem boundary_split_witness :
    (twoFileStore 4 6 fileA fileB).RawReadAt 3 3 = ([13, 20, 21], 3, none) ∧
    (twoFileStore 4 6 fileA fileB).RawWriteAt [1, 2, 3] 3 =
      (3, none, [⟨0, 3, [1]⟩, ⟨1, 0, [2, 3]⟩]) := by
  have h := boundary_split_spec 4 6 fileA fileB [1, 2, 3] 3 (by decide) (by decide)
    rfl rfl rfl rfl (by decide) (by decide) (by decide) (by decide)
  exact ⟨h.1.trans (by decide), h.2.trans (by decide)⟩

/-- Failure path of the construction loop: when the first `K` opens
succeed and the `K`-th fails, the loop propagates the error and closes
exactly the previously opened handles, in order. -/
theorem newFileStoreLoop_fail (fsys : FileSystem) :
    ∀ (dicts : List FileDict) (K : Nat) (g : Nat → File) (e : String)
      (total : Int) (accF : List fileEntry) (accO : List Int),
      K < dicts.length →
      (∀ j, j < K →
        fsys (dicts.getD j default).Path (dicts.getD j default).Length = Except.ok (g j)) →
      fsys (dicts.getD K default).Path (dicts.getD K default).Length = Except.error e →
      newFileStoreLoop fsys dicts total accF accO =
        (Except.error e,
          (accF ++ (List.range K).map
            (fun j => (⟨(dicts.getD j default).Length, g j⟩ : fileEntry))).map
              (fun en : fileEntry => en.file)) := by
  intro dicts
  induction dicts with
  | nil => intro K g e total accF accO hK _ _; simp at hK
  | cons d rest ih =>
    intro K g e total accF accO hK hopen herr
    have hstep : newFileStoreLoop fsys (d :: rest) total accF accO =
        (match fsys d.Path d.Length with
          | Except.error err => (Except.error err, accF.map (fun en : fileEntry => en.file))
          | Except.ok file =>
            newFileStoreLoop fsys rest (total + d.Length)
              (accF ++ [(⟨d.Length, file⟩ : fileEntry)]) (accO ++ [total])) := rfl
    cases K with
    | zero =>
      have hd : fsys d.Path d.Length = Except.error e := herr
      rw [hstep, hd]
      simp
    | succ K =>
      have hd : fsys d.Path d.Length = Except.ok (g 0) := hopen 0 (by omega)
      rw [hstep, hd]
      show newFileStoreLoop fsys rest (total + d.Length)
        (accF ++ [(⟨d.Length, g 0⟩ : fileEntry)]) (accO ++ [total]) = _
      have hrec := ih K (fun j => g (j + 1)) e (total + d.Length)
        (accF ++ [(⟨d.Length, g 0⟩ : fileEntry)]) (accO ++ [total]) (by simpa using hK)
        (fun j hj => by simpa using hopen (j + 1) (by omega))
        (by simpa using herr)
      rw [hrec]
      congr 1
      rw [List.append_assoc, List.range_succ_eq_map, List.map_cons, List.map_map]
      congr 2

/-- Success path of the construction loop: when every open succeeds,
the loop appends one entry per declared file in order, assigns each the
running-sum start offset, accumulates the total length, and closes
nothing. -/
theorem newFileStoreLoop_ok (fsys : FileSystem) :
    ∀ (dicts : List FileDict) (g : Nat → File)
      (total : Int) (accF : List fileEntry) (accO : List Int),
      (∀ j, j < dicts.length →
        fsys (dicts.getD j default).Path (dicts.getD j default).Length = Except.ok (g j)) →
      newFileStoreLoop fsys dicts total accF accO =
        (Except.ok
          (accF ++ (List.range dicts.length).map
            (fun j => (⟨(dicts.getD j default).Length, g j⟩ : fileEntry)),
           accO ++ runOffsets total dicts,
           total + (dicts.map (fun d => d.Length)).sum), []) := by
  intro dicts
  induction dicts with
  | nil =>
    intro g total accF accO _
    simp [newFileStoreLoop, runOffsets]
  | cons d rest ih =>
    intro g total accF accO hopen
    have hstep : newFileStoreLoop fsys (d :: rest) total accF accO =
        (match fsys d.Path d.Length with
          | Except.error err => (Except.error err, accF.map (fun en : fileEntry => en.file))
          | Except.ok file =>
            newFileStoreLoop fsys rest (total + d.Length)
              (accF ++ [(⟨d.Length, file⟩ : fileEntry)]) (accO ++ [total])) := rfl
    have hd : fsys d.Path d.Length = Except.ok (g 0) := hopen 0 (by simp)
    rw [hstep, hd]
    show newFileStoreLoop fsys rest (total + d.Length)
      (accF ++ [(⟨d.Length, g 0⟩ : fileEntry)]) (accO ++ [total]) = _
    have hrec := ih (fun j => g (j + 1)) (total + d.Length)
      (accF ++ [(⟨d.Length, g 0⟩ : fileEntry)]) (accO ++ [total])
      (fun j hj => by simpa using hopen (j + 1) (by simpa using hj))
    rw [hrec]
    have hF : accF ++ [(⟨d.Length, g 0⟩ : fileEntry)] ++
        (List.range rest.length).map
          (fun j => (⟨(rest.getD j default).Length, (fun j => g (j + 1)) j⟩ : fileEntry)) =
        accF ++ (List.range (d :: rest).length).map
          (fun j => (⟨((d :: rest).getD j default).Length, g j⟩ : fileEntry)) := by
      rw [List.append_assoc, List.length_cons, List.range_succ_eq_map, List.map_cons,
        List.map_map]
      rfl
    have hO : accO ++ [total] ++ runOffsets (total + d.Length) rest =
        accO ++ runOffsets total (d :: rest) := by
      rw [List.append_assoc]
      rfl
    have hT : total + d.Length + (rest.map (fun d => d.Length)).sum =
        total + ((d :: rest).map (fun d => d.Length)).sum := by
      simp only [List.map_cons, List.sum_cons]
      omega
    rw [hF, hO, hT]

/-- The construction assigns one offset per declared file. -/
theorem runOffsets_length (dicts : List FileDict) :
    ∀ total : Int, (runOffsets total dicts).length = dicts.length := by
  induction dicts with
  | nil => intro total; rfl
  | cons d rest ih => intro total; simp [runOffsets, ih]

/-- The `i`-th assigned offset is the base total plus the sum of the
first `i` declared lengths. -/
theorem runOffsets_getD (dicts : List FileDict) :
    ∀ (total : Int) (i : Nat), i < dicts.length →
      (runOffsets total dicts).getD i 0 =
        total + (List.take i (dicts.map (fun d => d.Length))).sum := by
  induction dicts with
  | nil => intro total i hi; simp at hi
  | cons d rest ih =>
    intro total i hi
    cases i with
    | zero => simp [runOffsets]
    | succ i =>
      have h := ih (total + d.Length) i (by simpa using hi)
      simp only [runOffsets, List.getD_cons_succ, h, List.map_cons, List.take_succ_cons,
        List.sum_cons]
      omega

/-- The constructed entries carry exactly the declared lengths. -/
theorem rangeMap_length_eq (dicts : List FileDict) (g : Nat → File) :
    ((List.range dicts.length).map
      (fun j => (⟨(dicts.getD j default).Length, g j⟩ : fileEntry))).map
        (fun e => e.length) = dicts.map (fun d => d.Length) := by
  apply List.ext_getElem
  · simp
  · intro i h1 h2
    simp only [List.getElem_map, List.getElem_range]
    rw [List.getD_eq_getElem]

/-- C6: after successful construction the store holds one entry per
effective declared file (the synthetic single entry of overall length
and name when the declared list is empty) with the declared lengths;
every entry's start offset is the running sum of the prior lengths
(`offsetsWF`, which with non-negative lengths makes the table sorted,
covering `[0, totalSize)` with no gaps or overlaps); the returned total
size is the sum of all entry lengths; and no cache is attached. -/
theorem NewFileStore_ok_spec (info : InfoDict) (fsys : FileSystem) (g : Nat → File)
    (hopen : ∀ j, j < (effectiveFiles info).length →
      fsys ((effectiveFiles info).getD j default).Path
        ((effectiveFiles info).getD j default).Length = Except.ok (g j)) :
    NewFileStore info fsys =
      (Except.ok (builtStore info g,
        ((effectiveFiles info).map (fun d => d.Length)).sum), []) ∧
    (builtStore info g).cache = none ∧
    (builtStore info g).files.length = (effectiveFiles info).length ∧
    (∀ j, j < (builtStore info g).files.length →
      ((builtStore info g).files.getD j default).length =
        ((effectiveFiles info).getD j default).Length) ∧
    offsetsWF (builtStore info g) ∧
    ((effectiveFiles info).map (fun d => d.Length)).sum = totalSizeI (builtStore info g) ∧
    ((∀ d ∈ effectiveFiles info, 0 ≤ d.Length) →
      ∀ i j, i ≤ j → j < (builtStore info g).offsets.length →
        (builtStore info g).offsets.getD i 0 ≤ (builtStore info g).offsets.getD j 0) ∧
    (info.Files = [] →
      effectiveFiles info = [⟨info.Length, [info.Name], info.Md5sum⟩] ∧
      (builtStore info g).files = [⟨info.Length, g 0⟩]) := by
  have h := newFileStoreLoop_ok fsys (effectiveFiles info) g 0 [] [] hopen
  rw [List.nil_append, List.nil_append, zero_add] at h
  have hlenB : (builtStore info g).files.length = (effectiveFiles info).length := by
    simp [builtStore, builtFiles]
  have hlenO : (builtStore info g).offsets.length = (effectiveFiles info).length := by
    simp [builtStore, runOffsets_length]
  have hmaplen : (builtStore info g).files.map (fun e => e.length) =
      (effectiveFiles info).map (fun d => d.Length) := by
    show (builtFiles info g).map (fun e => e.length) = _
    exact rangeMap_length_eq (effectiveFiles info) g
  have hpref : ∀ i, prefLenI (builtFiles info g) i =
      (List.take i ((effectiveFiles info).map (fun d => d.Length))).sum := by
    intro i
    unfold prefLenI builtFiles
    rw [List.map_take, rangeMap_length_eq]
  have hwf : offsetsWF (builtStore info g) := by
    constructor
    · rw [hlenO, hlenB]
    · intro i hi
      have hi2 : i < (effectiveFiles info).length := by rw [← hlenO]; exact hi
      show (runOffsets 0 (effectiveFiles info)).getD i 0 = prefLenI (builtFiles info g) i
      rw [runOffsets_getD (effectiveFiles info) 0 i hi2, zero_add, hpref]
  refine ⟨?_, rfl, hlenB, ?_, hwf, ?_, ?_, ?_⟩
  · show (match newFileStoreLoop fsys (effectiveFiles info) 0 [] [] with
      | (Except.ok (files, offsets, totalSize), _) =>
        (Except.ok (({ offsets := offsets, files := files, cache := none } : fileStore),
          totalSize), [])
      | (Except.error e, closed) => (Except.error e, closed)) = _
    rw [h]
    rfl
  · intro j hj
    have hj2 : j < (effectiveFiles info).length := by rw [← hlenB]; exact hj
    show ((builtFiles info g).getD j default).length = _
    unfold builtFiles
    rw [List.getD_eq_getElem _ _ (by simpa using hj2)]
    simp only [List.getElem_map, List.getElem_range]
  · show _ = (((builtStore info g).files.map (fun e => e.length))).sum
    rw [hmaplen]
  · intro hnn i j hij hj
    rw [hwf.2 i (by omega), hwf.2 j hj]
    apply prefLenI_mono
    · intro e he
      have hmem : e.length ∈ (builtStore info g).files.map (fun en => en.length) :=
        List.mem_map_of_mem _ he
      rw [hmaplen] at hmem
      rcases List.mem_map.mp hmem with ⟨d, hd, hde⟩
      rw [← hde]
      exact hnn d hd
    · exact hij
  · intro hempty
    have heff : effectiveFiles info = [⟨info.Length, [info.Name], info.Md5sum⟩] := by
      simp [effectiveFiles, hempty]
    refine ⟨heff, ?_⟩
    show builtFiles info g = _
    unfold builtFiles
    rw [heff]
    rfl

/-- C5: when opening the `K`-th declared file (0-indexed) fails,
construction closes exactly the `K` previously opened handles, in
order, propagates the open error, and returns no store. -/
theorem NewFileStore_fail_spec (info : InfoDict) (fsys : FileSystem) (K : Nat)
    (g : Nat → File) (e : String)
    (hne : info.Files ≠ [])
    (hK : K < info.Files.length)
    (hopen : ∀ j, j < K →
      fsys (info.Files.getD j default).Path (info.Files.getD j default).Length =
        Except.ok (g j))
    (herr : fsys (info.Files.getD K default).Path (info.Files.getD K default).Length =
      Except.error e) :
    NewFileStore info fsys = (Except.error e, (List.range K).map g) := by
  have heff : effectiveFiles info = info.Files := by
    unfold effectiveFiles
    rw [if_neg]
    simpa using hne
  have h := newFileStoreLoop_fail fsys info.Files K g e 0 [] [] hK hopen herr
  show (match newFileStoreLoop fsys (effectiveFiles info) 0 [] [] with
      | (Except.ok (files, offsets, totalSize), _) =>
        (Except.ok (({ offsets := offsets, files := files, cache := none } : fileStore),
          totalSize), [])
      | (Except.error e, closed) => (Except.error e, closed)) = _
  rw [heff, h]
  simp only [List.nil_append, List.map_map]
  rfl

/-- Witness for C5: with a filesystem that fails on the second of three
declared files, construction reports that error and closes exactly the
one handle opened for the first file. -/
theorem NewFileStore_fail_witness :
    NewFileStore infoW fsysFailB =
      (Except.error ("nope"), [{ data := [0, 0], closeErr := some ("a") }]) := by
  have h := NewFileStore_fail_spec infoW fsysFailB 1
    (fun _ => { data := [0, 0], closeErr := some ("a") }) ("nope")
    (by decide) (by decide)
    (by intro j hj; interval_cases j; rfl)
    rfl
  exact h.trans rfl

/-- Witness for C6: constructing from a metainfo with no declared files
yields the single synthetic 5-byte entry, total size 5, and a
well-formed offset table. -/
theorem NewFileStore_ok_witness :
    NewFileStore info0 fsysOK = (Except.ok (builtStore info0 g0, 5), []) ∧
    (builtStore info0 g0).files = [⟨5, g0 0⟩] ∧
    offsetsWF (builtStore info0 g0) := by
  have h := NewFileStore_ok_spec info0 fsysOK g0
    (by
      intro j hj
      have hj2 : j < 1 := hj
      interval_cases j
      rfl)
  refine ⟨?_, ?_, h.2.2.2.2.1⟩
  · have h5 : ((effectiveFiles info0).map (fun d => d.Length)).sum = (5 : Int) := by decide
    have h1 := h.1
    rw [h5] at h1
    exact h1
  · exact (h.2.2.2.2.2.2.2 rfl).2

end Torrent
